import Mathlib

/-!
# Shallow embedding of `src/soundboard.py`

This file embeds the core logic of the soundboard application — the sound
store, hotkey bookkeeping, playback ordering, sink resolution, persistence
and label parsing — as executable Lean definitions, and proves properties
about them.

Conventions:
* Python dicts (insertion ordered) are `List (String × _)` with first-key
  lookup, in-place update and first-occurrence removal.
* Python exceptions become `Except Err _` at the points where the source can
  raise; functions that cannot raise are total.
* The disk is modelled as the list of paths for which `os.path.exists`
  returns true (`os.path.exists ""` is false in Python, reflected below).
-/

set_option autoImplicit false

namespace Soundboard

/-- Truthiness of a Python string (`if path:`): nonempty. -/
def strTruthy (s : String) : Bool := s ≠ ""

/-- Truthiness of `str | None` (`if data["key"]:`). -/
def optTruthy : Option String → Bool
  | none => false
  | some s => strTruthy s

/-- Python exceptions that the embedded code paths can raise. -/
inductive Err where
  /-- Raised as `RuntimeError("Soundboard sink not found")` in `find_sb_sink`. -/
  | deviceNotFound
  /-- Python `NameError`: the name `keyboard` is unbound outside x11 sessions. -/
  | nameError
  /-- Python `KeyError`: subscripting a dict with a missing key. -/
  | keyError
deriving DecidableEq, Repr

/-- Python `sub in s` on character lists: some position of `s` starts with
`sub`. -/
def containsSubAux (pat : List Char) : List Char → Bool
  | [] => pat.isEmpty
  | c :: rest => pat.isPrefixOf (c :: rest) || containsSubAux pat rest

/-- Python `sub in s` on strings. -/
def pyContains (s sub : String) : Bool := containsSubAux sub.data s.data

/-- Python `str.lower()` as used on device names (ASCII device-name alphabet). -/
def pyLower (s : String) : String := ⟨s.data.map Char.toLower⟩

deriving instance DecidableEq for Except

/-- The fixed substring identifying the reserved virtual sink
(`"soundboard_internal"`, soundboard.py line 213). -/
def SB_SINK_SUBSTR : String := "soundboard_internal"

/-- The per-device test of `find_sb_sink`:
`"soundboard_internal" in dev["name"].lower()`. -/
def isSbSink (devName : String) : Bool := pyContains (pyLower devName) SB_SINK_SUBSTR

/-- Index-tracking loop of `find_sb_sink` (`for i, dev in enumerate(...)`). -/
def find_sb_sinkAux : Nat → List String → Except Err Nat
  | _, [] => .error .deviceNotFound
  | i, d :: rest => if isSbSink d then .ok i else find_sb_sinkAux (i + 1) rest

/-- Method `SoundboardWindow.find_sb_sink` (lines 211–215): first enumerated device
whose lowercased name contains the reserved substring; raises otherwise. -/
def find_sb_sink (devices : List String) : Except Err Nat :=
  find_sb_sinkAux 0 devices

theorem find_sb_sinkAux_ok {k : Nat} {devices : List String} {i : Nat}
    (h : find_sb_sinkAux k devices = .ok i) :
    k ≤ i ∧ ∃ d, devices.get? (i - k) = some d ∧ isSbSink d = true ∧
      ∀ j, j < i - k → ∀ d', devices.get? j = some d' → isSbSink d' = false := by
  induction devices generalizing k with
  | nil => simp [find_sb_sinkAux] at h
  | cons d rest ih =>
    by_cases hd : isSbSink d = true
    · simp [find_sb_sinkAux, hd] at h
      subst h
      refine ⟨le_refl _, d, ?_, hd, ?_⟩
      · simp
      · intro j hj d' hd'
        omega
    · simp [find_sb_sinkAux, hd] at h
      obtain ⟨hk, d', hget, hsink, hfirst⟩ := ih h
      refine ⟨by omega, d', ?_, hsink, ?_⟩
      · have : i - k = (i - (k + 1)) + 1 := by omega
        rw [this]
        simpa using hget
      · intro j hj d'' hd''
        cases j with
        | zero =>
          simp at hd''
          subst hd''
          simpa using hd
        | succ j' =>
          have : j' < i - (k + 1) := by omega
          exact hfirst j' this d'' (by simpa using hd'')

theorem find_sb_sinkAux_err {k : Nat} {devices : List String}
    (h : find_sb_sinkAux k devices = .error .deviceNotFound) :
    ∀ d ∈ devices, isSbSink d = false := by
  induction devices generalizing k with
  | nil => intro d hd; simp at hd
  | cons d rest ih =>
    by_cases hd : isSbSink d = true
    · simp [find_sb_sinkAux, hd] at h
    · simp [find_sb_sinkAux, hd] at h
      intro d' hd'
      rcases List.mem_cons.mp hd' with h1 | h2
      · subst h1; simpa using hd
      · exact ih h d' h2

theorem find_sb_sinkAux_none {k : Nat} {devices : List String}
    (h : ∀ d ∈ devices, isSbSink d = false) :
    find_sb_sinkAux k devices = .error .deviceNotFound := by
  induction devices generalizing k with
  | nil => rfl
  | cons d rest ih =>
    have hd : isSbSink d = false := h d (by simp)
    simp [find_sb_sinkAux, hd]
    exact ih fun d' hd' => h d' (List.mem_cons_of_mem _ hd')

/-- Claim C4: `find_sb_sink` returns the index of the first enumerated device
whose name contains, case-insensitively, the reserved sink substring, and
fails with the device-not-found error exactly when no device matches; in
particular it returns 1 on `["default_output", "soundboard_internal_42"]`
and fails on `["default_output"]`. -/
theorem claimC4 (devices : List String) :
    (find_sb_sink ["default_output", "soundboard_internal_42"] = .ok 1
      ∧ find_sb_sink ["default_output"] = .error .deviceNotFound)
    ∧ (∀ i, find_sb_sink devices = .ok i →
        ∃ d, devices.get? i = some d ∧ isSbSink d = true ∧
          ∀ j, j < i → ∀ d', devices.get? j = some d' → isSbSink d' = false)
    ∧ (find_sb_sink devices = .error .deviceNotFound ↔
        ∀ d ∈ devices, isSbSink d = false) := by
  refine ⟨⟨by decide, by decide⟩, ?_, ?_, ?_⟩
  · intro i h
    obtain ⟨_, d, hget, hsink, hfirst⟩ := find_sb_sinkAux_ok h
    exact ⟨d, by simpa using hget, hsink, fun j hj => by
      simpa using hfirst j (by omega)⟩
  · exact find_sb_sinkAux_err
  · exact find_sb_sinkAux_none

/-- Witness for C4 at the spec's concrete device lists. -/
theorem claimC4_witness :
    ∃ d, ["default_output", "soundboard_internal_42"].get? 1 = some d ∧
      isSbSink d = true ∧
      ∀ j, j < 1 → ∀ d',
        ["default_output", "soundboard_internal_42"].get? j = some d' →
          isSbSink d' = false :=
  (claimC4 ["default_output", "soundboard_internal_42"]).2.1 1 (by decide)

/-- A sound entry: `{"path": path, "key": key}` with `key : str | None`. -/
structure Entry where
  path : String
  key : Option String
deriving DecidableEq, Repr

/-- First-key lookup in an insertion-ordered dict (`self.sounds[name]`). -/
def dictGet : List (String × Entry) → String → Option Entry
  | [], _ => none
  | (k, v) :: rest, n => if k = n then some v else dictGet rest n

/-- Dict assignment `self.sounds[name] = e`: update in place if the key is
present (keeping its position, as Python dicts do), else append. -/
def dictInsert : List (String × Entry) → String → Entry → List (String × Entry)
  | [], n, e => [(n, e)]
  | (k, v) :: rest, n, e =>
      if k = n then (k, e) :: rest else (k, v) :: dictInsert rest n e

/-- Dict `self.sounds.pop(name, None)`: remove the entry if present, else do
nothing; never raises. -/
def dictPop : List (String × Entry) → String → List (String × Entry)
  | [], _ => []
  | (k, v) :: rest, n => if k = n then rest else (k, v) :: dictPop rest n

/-- The mutable state of `SoundboardWindow` relevant to the store and the
hotkey layer: `self.sounds` and `self.hotkey_ids`. A live hook in
`hotkey_ids` is recorded together with the combo string it was registered
for via `keyboard.add_hotkey(combo, lambda: play_sound(name))`. -/
structure SBState where
  sounds : List (String × Entry)
  bindings : List (String × String)
deriving DecidableEq, Repr

/-- The initial state (`self.sounds = {}`, `self.hotkey_ids = {}`). -/
def initState : SBState := ⟨[], []⟩

/-- Method `add_sound` after the file dialog returned `path` with basename `name`
(lines 151–154): `self.sounds[name] = {"path": path, "key": None}`. The
hook table is untouched. -/
def add_sound (s : SBState) (name path : String) : SBState :=
  { s with sounds := dictInsert s.sounds name ⟨path, none⟩ }

/-- Method `register_hotkeys` (lines 185–196): remove every live hook, clear
`hotkey_ids`, then register a hook for every entry with a truthy key. -/
def register_hotkeys (s : SBState) : SBState :=
  { s with bindings :=
      s.sounds.filterMap fun p =>
        match p.2.key with
        | some k => if strTruthy k then some (p.1, k) else none
        | none => none }

/-- First half of `delete_sound` (lines 163–165): if `name` has a live
hook, `keyboard.remove_hotkey` it and drop it from `hotkey_ids`. -/
def delete_unhook (s : SBState) (name : String) : SBState :=
  { s with bindings := s.bindings.filter fun b => b.1 != name }

/-- Method `delete_sound` on the resolved `name` (lines 161–169): unhook first,
then `self.sounds.pop(name, None)`. -/
def delete_sound (s : SBState) (name : String) : SBState :=
  let s1 := delete_unhook s name
  { s1 with sounds := dictPop s1.sounds name }

/-- Method `assign_hotkey` on the resolved `name` once the dialog produced the
truthy combo `combo` (lines 176–183): `self.sounds[name]["key"] = combo`
(a `KeyError` if `name` is not in the dict), then `register_hotkeys`. -/
def assign_hotkey (s : SBState) (name combo : String) : Except Err SBState :=
  match dictGet s.sounds name with
  | none => .error .keyError
  | some e =>
      .ok (register_hotkeys
        { s with sounds := dictInsert s.sounds name { e with key := some combo } })

/-- Names that currently own a live OS hook (`self.hotkey_ids.keys()`). -/
def boundNames (s : SBState) : List String := s.bindings.map fun b => b.1

/-- Names of entries whose stored hotkey is truthy (`if data["key"]:`). -/
def assignedOf (sounds : List (String × Entry)) : List String :=
  (sounds.filter fun p => optTruthy p.2.key).map fun p => p.1

/-- Names of the state's entries with an assigned (truthy) hotkey. -/
def assignedNames (s : SBState) : List String := assignedOf s.sounds

/-- The live-binding invariant: the set of names with a live hook equals the
set of names whose entry has an assigned hotkey. -/
def bindingInv (s : SBState) : Bool :=
  (boundNames s).all (assignedNames s).contains
    && (assignedNames s).all (boundNames s).contains

/-- Pressing combo `c`: the OS hook fires the callback of every live
binding registered for `c`; each callback plays its recorded name. -/
def triggered (s : SBState) (c : String) : List String :=
  (s.bindings.filter fun b => b.2 == c).map fun b => b.1

/-- Audio-subsystem actions, in the order a method performs them. -/
inductive AudioEvent where
  | decode (path : String)
  | stop
  | resolveSink
  | start (path : String)
deriving DecidableEq, Repr

/-- Method `play_sound` (lines 198–202): look up the entry's path (`KeyError` if
the name is gone), then `load_audio(path)`, `sd.stop()`,
`self.find_sb_sink()`, `sd.play(..., blocking=False)` in program order. -/
def play_sound (s : SBState) (name : String) : Except Err (List AudioEvent) :=
  match dictGet s.sounds name with
  | none => .error .keyError
  | some e => .ok [.decode e.path, .stop, .resolveSink, .start e.path]

/-- Effect of one audio action on the currently audible stream: `sd.stop`
silences it, `sd.play` replaces it, decoding and device queries leave it. -/
def applyEvent : Option String → AudioEvent → Option String
  | _, .stop => none
  | _, .start p => some p
  | cur, .decode _ => cur
  | cur, .resolveSink => cur

/-- The audible stream after a sequence of audio actions. -/
def activeAfter (a : Option String) (evts : List AudioEvent) : Option String :=
  evts.foldl applyEvent a

/-! ## Dict lemmas -/

theorem dictGet_dictInsert_self (l : List (String × Entry)) (n : String) (e : Entry) :
    dictGet (dictInsert l n e) n = some e := by
  induction l with
  | nil => simp [dictInsert, dictGet]
  | cons p rest ih =>
    by_cases h : p.1 = n
    · simp [dictInsert, dictGet, h]
    · simp [dictInsert, dictGet, h, ih]

theorem dictInsert_of_get_none {l : List (String × Entry)} {n : String}
    (h : dictGet l n = none) (e : Entry) :
    dictInsert l n e = l ++ [(n, e)] := by
  induction l with
  | nil => rfl
  | cons p rest ih =>
    by_cases hp : p.1 = n
    · simp [dictGet, hp] at h
    · simp [dictGet, hp] at h
      simp [dictInsert, hp, ih h]

theorem dictPop_of_get_none {l : List (String × Entry)} {n : String}
    (h : dictGet l n = none) :
    dictPop l n = l := by
  induction l with
  | nil => rfl
  | cons p rest ih =>
    by_cases hp : p.1 = n
    · simp [dictGet, hp] at h
    · simp [dictGet, hp] at h
      simp [dictPop, hp, ih h]

theorem dictGet_eq_none_of_not_mem {l : List (String × Entry)} {n : String}
    (h : n ∉ l.map Prod.fst) :
    dictGet l n = none := by
  induction l with
  | nil => rfl
  | cons p rest ih =>
    rw [List.map_cons, List.mem_cons] at h
    push_neg at h
    simp only [dictGet]
    rw [if_neg (fun he => h.1 he.symm), ih h.2]

theorem dictGet_dictPop_self {l : List (String × Entry)} {n : String}
    (hnd : (l.map Prod.fst).Nodup) :
    dictGet (dictPop l n) n = none := by
  induction l with
  | nil => rfl
  | cons p rest ih =>
    rw [List.map_cons, List.nodup_cons] at hnd
    by_cases hp : p.1 = n
    · subst hp
      simp only [dictPop, if_pos rfl]
      exact dictGet_eq_none_of_not_mem hnd.1
    · simp only [dictPop]
      rw [if_neg hp]
      simp only [dictGet]
      rw [if_neg hp]
      exact ih hnd.2

theorem dictGet_of_mem_nodup {l : List (String × Entry)} {n : String} {e : Entry}
    (hm : (n, e) ∈ l) (hnd : (l.map Prod.fst).Nodup) :
    dictGet l n = some e := by
  induction l with
  | nil => simp at hm
  | cons p rest ih =>
    rw [List.map_cons, List.nodup_cons] at hnd
    rcases List.mem_cons.mp hm with h1 | h2
    · rw [← h1]
      simp [dictGet]
    · have hn : n ∈ rest.map Prod.fst := List.mem_map_of_mem Prod.fst h2
      have hne : p.1 ≠ n := fun he => hnd.1 (by rw [he]; exact hn)
      simp only [dictGet]
      rw [if_neg hne]
      exact ih h2 hnd.2

/-! ## C1: playback ordering in `play_sound` -/

/-- A concrete reachable state with one entry and no binding. -/
def exState : SBState := add_sound initState "a.wav" "/tmp/a.wav"

/-- Claim C1, counterexample: the first audio action of `play_sound` is the
decode of the file, not `sd.stop()` — the stream is stopped only after
`load_audio` returns (soundboard.py lines 199–200). -/
theorem claimC1_counterexample :
    (play_sound exState "a.wav").map List.head?
        = .ok (some (.decode "/tmp/a.wav"))
      ∧ (play_sound exState "a.wav").map List.head? ≠ .ok (some .stop) := by
  decide

/-- Claim C1, amended: `play_sound` decodes the file first, then
unconditionally stops any active stream, then resolves the sink, then
starts the new stream; the stop still precedes the start, so after the
first three actions nothing is audible whatever was playing before, and
for any play A followed by a play B, A's stream is silenced before B's
stream starts — no two streams are ever simultaneously audible. -/
theorem claimC1 (s : SBState) (name : String) (tr : List AudioEvent)
    (a : Option String) (h : play_sound s name = .ok tr) :
    ∃ e, dictGet s.sounds name = some e
      ∧ tr = [.decode e.path, .stop, .resolveSink, .start e.path]
      ∧ activeAfter a (tr.take 3) = none
      ∧ activeAfter a tr = some e.path
      ∧ ∀ s2 n2 tr2, play_sound s2 n2 = .ok tr2 →
          activeAfter a (tr ++ tr2.take 3) = none := by
  unfold play_sound at h
  cases hg : dictGet s.sounds name with
  | none => rw [hg] at h; exact absurd h (by simp)
  | some e =>
    rw [hg] at h
    simp at h
    refine ⟨e, rfl, h.symm, ?_, ?_, ?_⟩
    · subst h; rfl
    · subst h; rfl
    · intro s2 n2 tr2 h2
      unfold play_sound at h2
      cases hg2 : dictGet s2.sounds n2 with
      | none => rw [hg2] at h2; exact absurd h2 (by simp)
      | some e2 =>
        rw [hg2] at h2
        simp at h2
        subst h
        subst h2
        rfl

/-- Witness for C1 (amended) at a concrete state and trace. -/
theorem claimC1_witness :
    ∃ e, dictGet exState.sounds "a.wav" = some e
      ∧ ([AudioEvent.decode "/tmp/a.wav", .stop, .resolveSink,
            .start "/tmp/a.wav"]
          = [.decode e.path, .stop, .resolveSink, .start e.path])
      ∧ activeAfter (some "/old.wav")
          ([AudioEvent.decode "/tmp/a.wav", .stop, .resolveSink,
              .start "/tmp/a.wav"].take 3) = none
      ∧ activeAfter (some "/old.wav")
          [AudioEvent.decode "/tmp/a.wav", .stop, .resolveSink,
            .start "/tmp/a.wav"] = some e.path
      ∧ ∀ s2 n2 tr2, play_sound s2 n2 = .ok tr2 →
          activeAfter (some "/old.wav")
            ([AudioEvent.decode "/tmp/a.wav", .stop, .resolveSink,
                .start "/tmp/a.wav"] ++ tr2.take 3) = none :=
  claimC1 exState "a.wav"
    [.decode "/tmp/a.wav", .stop, .resolveSink, .start "/tmp/a.wav"]
    (some "/old.wav") rfl

/-! ## C3: adding a sound with a duplicate id -/

/-- Claim C3, counterexample: `add_sound` never raises (its Lean type is
total, mirroring the unconditional dict assignment at line 152), and adding
an id that already exists changes the store: the entry is overwritten with
the new path and its hotkey is reset to `None`. -/
theorem claimC3_counterexample :
    add_sound (add_sound initState "a.wav" "/tmp/a.wav") "a.wav" "/tmp/b.wav"
        ≠ add_sound initState "a.wav" "/tmp/a.wav"
      ∧ dictGet (add_sound (add_sound initState "a.wav" "/tmp/a.wav")
            "a.wav" "/tmp/b.wav").sounds "a.wav"
          = some ⟨"/tmp/b.wav", none⟩ := by
  decide

/-- Claim C3, amended: `add_sound` with a fresh id appends the entry with
`hotkey = none`; with an existing id it does not fail — it silently
overwrites the entry in place with the new path and `hotkey = none`. In
both cases the hook table is untouched. -/
theorem claimC3 (s : SBState) (n p : String) :
    (dictGet s.sounds n = none →
        (add_sound s n p).sounds = s.sounds ++ [(n, ⟨p, none⟩)])
      ∧ dictGet (add_sound s n p).sounds n = some ⟨p, none⟩
      ∧ (add_sound s n p).bindings = s.bindings := by
  refine ⟨fun h => ?_, dictGet_dictInsert_self s.sounds n ⟨p, none⟩, rfl⟩
  simp only [add_sound]
  rw [dictInsert_of_get_none h]

/-- Witness for C3 (amended) at the empty store. -/
theorem claimC3_witness :
    (add_sound initState "a.wav" "/tmp/a.wav").sounds
        = initState.sounds ++ [("a.wav", ⟨"/tmp/a.wav", none⟩)] :=
  (claimC3 initState "a.wav" "/tmp/a.wav").1 rfl

/-! ## C9: removing an unknown id -/

/-- Claim C9, counterexample: deleting an id that is not in the store raises
nothing and leaves the state unchanged — `self.sounds.pop(name, None)`
(line 167) supplies a default, so no `KeyError`/`NotFoundError` is ever
raised and the operation is a silent no-op. -/
theorem claimC9_counterexample :
    delete_sound ⟨[("b.wav", ⟨"/tmp/b.wav", none⟩)], []⟩ "x.wav"
      = ⟨[("b.wav", ⟨"/tmp/b.wav", none⟩)], []⟩ := by
  decide

/-- Claim C9, amended: `delete_sound` of an id never fails: when the id is
absent the store is left unchanged (silent no-op); when it is present the
entry is removed, so the id no longer resolves afterwards. -/
theorem claimC9 (s : SBState) (n : String)
    (hnd : (s.sounds.map Prod.fst).Nodup) :
    (dictGet s.sounds n = none → (delete_sound s n).sounds = s.sounds)
      ∧ dictGet (delete_sound s n).sounds n = none := by
  constructor
  · intro h
    simp only [delete_sound, delete_unhook]
    exact dictPop_of_get_none h
  · simp only [delete_sound, delete_unhook]
    exact dictGet_dictPop_self hnd

/-- Witness for C9 (amended) at a one-entry store. -/
theorem claimC9_witness :
    (dictGet (⟨[("b.wav", ⟨"/tmp/b.wav", none⟩)], []⟩ : SBState).sounds "x.wav"
          = none →
        (delete_sound ⟨[("b.wav", ⟨"/tmp/b.wav", none⟩)], []⟩ "x.wav").sounds
          = [("b.wav", ⟨"/tmp/b.wav", none⟩)])
      ∧ dictGet (delete_sound ⟨[("b.wav", ⟨"/tmp/b.wav", none⟩)], []⟩
            "x.wav").sounds "x.wav" = none :=
  claimC9 ⟨[("b.wav", ⟨"/tmp/b.wav", none⟩)], []⟩ "x.wav" (by decide)

/-! ## C7: delete removes the hook before the entry disappears -/

/-- Claim C7: deleting an entry removes its live hook first: after the unhook
step no binding for the name remains while the store still holds the entry,
and only then is the entry popped; afterwards, triggering the entry's
former combo fires no callback (given the spec's §3 invariant that a combo
is live for at most that one entry). -/
theorem claimC7 (s : SBState) (n c : String)
    (hc : ∀ b ∈ s.bindings, b.2 = c → b.1 = n) :
    (∀ b ∈ (delete_unhook s n).bindings, b.1 ≠ n)
      ∧ (delete_unhook s n).sounds = s.sounds
      ∧ (delete_sound s n).sounds = dictPop s.sounds n
      ∧ (delete_sound s n).bindings = (delete_unhook s n).bindings
      ∧ triggered (delete_sound s n) c = [] := by
  refine ⟨?_, rfl, rfl, rfl, ?_⟩
  · intro b hb
    have := (List.mem_filter.mp hb).2
    simpa using this
  · simp only [triggered, delete_sound, delete_unhook]
    have : (s.bindings.filter fun b => b.1 != n).filter (fun b => b.2 == c)
        = [] := by
      rw [List.filter_eq_nil_iff]
      intro b hb
      have h1 := (List.mem_filter.mp hb).1
      have h2 := (List.mem_filter.mp hb).2
      intro hbc
      have hb2 : b.2 = c := by simpa using hbc
      have : b.1 = n := hc b h1 hb2
      simp [this] at h2
    rw [this]
    rfl

/-- Witness for C7 at a state with one bound entry. -/
theorem claimC7_witness :
    (∀ b ∈ (delete_unhook
          ⟨[("a.wav", ⟨"/tmp/a.wav", some "ctrl+q"⟩)], [("a.wav", "ctrl+q")]⟩
          "a.wav").bindings, b.1 ≠ "a.wav")
      ∧ (delete_unhook
            ⟨[("a.wav", ⟨"/tmp/a.wav", some "ctrl+q"⟩)], [("a.wav", "ctrl+q")]⟩
            "a.wav").sounds
          = [("a.wav", ⟨"/tmp/a.wav", some "ctrl+q"⟩)]
      ∧ (delete_sound
            ⟨[("a.wav", ⟨"/tmp/a.wav", some "ctrl+q"⟩)], [("a.wav", "ctrl+q")]⟩
            "a.wav").sounds
          = dictPop [("a.wav", ⟨"/tmp/a.wav", some "ctrl+q"⟩)] "a.wav"
      ∧ (delete_sound
            ⟨[("a.wav", ⟨"/tmp/a.wav", some "ctrl+q"⟩)], [("a.wav", "ctrl+q")]⟩
            "a.wav").bindings
          = (delete_unhook
              ⟨[("a.wav", ⟨"/tmp/a.wav", some "ctrl+q"⟩)], [("a.wav", "ctrl+q")]⟩
              "a.wav").bindings
      ∧ triggered (delete_sound
            ⟨[("a.wav", ⟨"/tmp/a.wav", some "ctrl+q"⟩)], [("a.wav", "ctrl+q")]⟩
            "a.wav") "ctrl+q" = [] :=
  claimC7 ⟨[("a.wav", ⟨"/tmp/a.wav", some "ctrl+q"⟩)], [("a.wav", "ctrl+q")]⟩
    "a.wav" "ctrl+q" (by decide)

/-! ## C2: the live-binding invariant -/

theorem mem_assignedOf {l : List (String × Entry)} {m : String} :
    m ∈ assignedOf l ↔ ∃ e, (m, e) ∈ l ∧ optTruthy e.key = true := by
  constructor
  · intro h
    obtain ⟨p, hp, hfst⟩ := List.mem_map.mp h
    obtain ⟨hpl, hpt⟩ := List.mem_filter.mp hp
    refine ⟨p.2, ?_, hpt⟩
    rw [← hfst]
    exact hpl
  · rintro ⟨e, hel, het⟩
    exact List.mem_map.mpr ⟨(m, e), List.mem_filter.mpr ⟨hel, het⟩, rfl⟩

theorem assignedOf_subset_keys {l : List (String × Entry)} {m : String}
    (h : m ∈ assignedOf l) : m ∈ l.map Prod.fst := by
  obtain ⟨e, hel, _⟩ := mem_assignedOf.mp h
  exact List.mem_map_of_mem Prod.fst hel

theorem bindingInv_iff (s : SBState) :
    bindingInv s = true ↔ ∀ n, (n ∈ boundNames s ↔ n ∈ assignedNames s) := by
  simp only [bindingInv, Bool.and_eq_true, List.all_eq_true, List.contains,
    List.elem_eq_mem, decide_eq_true_iff]
  constructor
  · rintro ⟨h1, h2⟩ n
    exact ⟨h1 n, h2 n⟩
  · intro h
    exact ⟨fun n hn => (h n).mp hn, fun n hn => (h n).mpr hn⟩

theorem names_of_register (l : List (String × Entry)) :
    ((l.filterMap fun p =>
        match p.2.key with
        | some k => if strTruthy k then some (p.1, k) else none
        | none => none).map fun b => b.1)
      = assignedOf l := by
  induction l with
  | nil => rfl
  | cons p rest ih =>
    cases hk : p.2.key with
    | none =>
      simp [List.filterMap_cons, hk, assignedOf, List.filter_cons, optTruthy,
        ih]
    | some k =>
      by_cases ht : strTruthy k = true
      · simp [List.filterMap_cons, hk, ht, assignedOf, List.filter_cons,
          optTruthy, ih]
      · simp only [Bool.not_eq_true] at ht
        simp [List.filterMap_cons, hk, ht, assignedOf, List.filter_cons,
          optTruthy, ih]

theorem boundNames_register (s : SBState) :
    boundNames (register_hotkeys s) = assignedNames s := by
  simp only [boundNames, register_hotkeys, assignedNames]
  exact names_of_register s.sounds

theorem bindingInv_register (s : SBState) :
    bindingInv (register_hotkeys s) = true := by
  rw [bindingInv_iff]
  intro n
  rw [boundNames_register]
  exact Iff.rfl

theorem mem_boundNames_delete {s : SBState} {n m : String} :
    m ∈ boundNames (delete_sound s n) ↔ m ∈ boundNames s ∧ m ≠ n := by
  simp only [boundNames, delete_sound, delete_unhook]
  constructor
  · intro h
    obtain ⟨b, hb, hfst⟩ := List.mem_map.mp h
    obtain ⟨hbl, hbp⟩ := List.mem_filter.mp hb
    refine ⟨List.mem_map.mpr ⟨b, hbl, hfst⟩, ?_⟩
    rw [← hfst]
    simpa using hbp
  · rintro ⟨h, hne⟩
    obtain ⟨b, hb, hfst⟩ := List.mem_map.mp h
    exact List.mem_map.mpr
      ⟨b, List.mem_filter.mpr ⟨hb, by simpa [hfst] using hne⟩, hfst⟩

theorem mem_assignedOf_dictPop {l : List (String × Entry)} {n m : String}
    (hnd : (l.map Prod.fst).Nodup) :
    m ∈ assignedOf (dictPop l n) ↔ m ∈ assignedOf l ∧ m ≠ n := by
  induction l with
  | nil => simp [dictPop, assignedOf]
  | cons p rest ih =>
    rw [List.map_cons, List.nodup_cons] at hnd
    by_cases hp : p.1 = n
    · subst hp
      simp only [dictPop, if_pos rfl]
      constructor
      · intro h
        have hk : m ∈ rest.map Prod.fst := assignedOf_subset_keys h
        have hne : m ≠ p.1 := fun he => hnd.1 (he ▸ hk)
        refine ⟨?_, hne⟩
        obtain ⟨e, hel, het⟩ := mem_assignedOf.mp h
        exact mem_assignedOf.mpr ⟨e, List.mem_cons_of_mem _ hel, het⟩
      · rintro ⟨h, hne⟩
        obtain ⟨e, hel, het⟩ := mem_assignedOf.mp h
        rcases List.mem_cons.mp hel with h1 | h2
        · exact absurd (congrArg Prod.fst h1) hne
        · exact mem_assignedOf.mpr ⟨e, h2, het⟩
    · simp only [dictPop, if_neg hp]
      constructor
      · intro h
        obtain ⟨e, hel, het⟩ := mem_assignedOf.mp h
        rcases List.mem_cons.mp hel with h1 | h2
        · have hm : m = p.1 := congrArg Prod.fst h1
          refine ⟨mem_assignedOf.mpr ⟨e, by rw [h1]; exact List.mem_cons_self _ _, het⟩, ?_⟩
          rw [hm]; exact hp
        · have hrec := (ih hnd.2).mp (mem_assignedOf.mpr ⟨e, h2, het⟩)
          obtain ⟨e', hel', het'⟩ := mem_assignedOf.mp hrec.1
          exact ⟨mem_assignedOf.mpr
            ⟨e', List.mem_cons_of_mem _ hel', het'⟩, hrec.2⟩
      · rintro ⟨h, hne⟩
        obtain ⟨e, hel, het⟩ := mem_assignedOf.mp h
        rcases List.mem_cons.mp hel with h1 | h2
        · exact mem_assignedOf.mpr ⟨e, by rw [h1]; exact List.mem_cons_self _ _, het⟩
        · have := (ih hnd.2).mpr ⟨mem_assignedOf.mpr ⟨e, h2, het⟩, hne⟩
          obtain ⟨e', hel', het'⟩ := mem_assignedOf.mp this
          exact mem_assignedOf.mpr ⟨e', List.mem_cons_of_mem _ hel', het'⟩

theorem assignedOf_append_nonkey (l : List (String × Entry)) (n p : String) :
    assignedOf (l ++ [(n, ⟨p, none⟩)]) = assignedOf l := by
  simp [assignedOf, List.filter_append, optTruthy]

/-- Claim C2, counterexample: the live-binding invariant is violated by a
reachable sequence of the store operations: add `"a.wav"`, assign it a
hotkey (which rebuilds the hooks), then add `"a.wav"` again — the second
add overwrites the entry with `hotkey = None` but leaves the live hook
installed, so the hook set no longer matches the assigned-hotkey set. -/
theorem claimC2_counterexample :
    (assign_hotkey (add_sound initState "a.wav" "/tmp/a.wav") "a.wav"
          "ctrl+q").map
        (fun s => bindingInv (add_sound s "a.wav" "/tmp/b.wav"))
      = .ok false := by
  decide

/-- Claim C2, amended: provided ids are unique in the store, the live-binding
invariant (hook set = assigned-hotkey set; in particular an entry with
`hotkey = none` owns no hook) is preserved by delete, by a hook rebuild, by
a hotkey assignment and by adding a sound with a *fresh* id. (Adding with
an existing id can break it, see the counterexample.) -/
theorem claimC2 (s : SBState) (n p c : String)
    (hnd : (s.sounds.map Prod.fst).Nodup) (h : bindingInv s = true) :
    bindingInv (delete_sound s n) = true
      ∧ bindingInv (register_hotkeys s) = true
      ∧ (∀ s', assign_hotkey s n c = .ok s' → bindingInv s' = true)
      ∧ (dictGet s.sounds n = none → bindingInv (add_sound s n p) = true)
      ∧ (∀ m e, dictGet s.sounds m = some e → e.key = none →
          (boundNames s).contains m = false) := by
  have h' := (bindingInv_iff s).mp h
  refine ⟨?_, bindingInv_register s, ?_, ?_, ?_⟩
  · rw [bindingInv_iff]
    intro m
    constructor
    · intro hm
      have hd := mem_boundNames_delete.mp hm
      exact (mem_assignedOf_dictPop hnd).mpr ⟨(h' m).mp hd.1, hd.2⟩
    · intro hm
      have hd := (mem_assignedOf_dictPop hnd).mp hm
      exact mem_boundNames_delete.mpr ⟨(h' m).mpr hd.1, hd.2⟩
  · intro s' ha
    unfold assign_hotkey at ha
    cases hg : dictGet s.sounds n with
    | none => rw [hg] at ha; exact absurd ha (by simp)
    | some e =>
      rw [hg] at ha
      simp at ha
      rw [← ha]
      exact bindingInv_register _
  · intro hg
    have hs : (add_sound s n p).sounds = s.sounds ++ [(n, ⟨p, none⟩)] := by
      simp only [add_sound]
      exact dictInsert_of_get_none hg _
    rw [bindingInv_iff]
    intro m
    have hA : assignedNames (add_sound s n p) = assignedNames s := by
      simp only [assignedNames, hs]
      exact assignedOf_append_nonkey s.sounds n p
    rw [hA]
    exact h' m
  · intro m e hg hk
    by_contra hbc
    rw [Bool.not_eq_false, List.contains, List.elem_eq_mem,
      decide_eq_true_iff] at hbc
    have hma := (h' m).mp hbc
    obtain ⟨e', hel', het'⟩ := mem_assignedOf.mp hma
    have hge := dictGet_of_mem_nodup hel' hnd
    rw [hg] at hge
    have he : e = e' := Option.some.inj hge
    rw [← he, hk] at het'
    exact absurd het' (by simp [optTruthy])

/-- Witness for C2 (amended) at the empty state. -/
theorem claimC2_witness :
    bindingInv (delete_sound initState "a.wav") = true
      ∧ bindingInv (register_hotkeys initState) = true
      ∧ (∀ s', assign_hotkey initState "a.wav" "ctrl+q" = .ok s' →
          bindingInv s' = true)
      ∧ (dictGet initState.sounds "a.wav" = none →
          bindingInv (add_sound initState "a.wav" "/tmp/a.wav") = true)
      ∧ (∀ m e, dictGet initState.sounds m = some e → e.key = none →
          (boundNames initState).contains m = false) :=
  claimC2 initState "a.wav" "/tmp/a.wav" "ctrl+q" (by decide) (by decide)

/-! ## Persistence: `save_sounds` / `load_sounds` (C5, C8) -/

/-- One record of the persisted `"sounds"` array: `{name, path, key}`. -/
structure SettingsRecord where
  name : String
  path : String
  key : Option String
deriving DecidableEq, Repr

/-- Method `save_sounds` (lines 237–244): rewrite the whole array from the current
store order, one record per entry. -/
def save_sounds (sounds : List (String × Entry)) : List SettingsRecord :=
  sounds.map fun p => ⟨p.1, p.2.path, p.2.key⟩

/-- Python `os.path.exists` against a modelled disk: the list of existing paths. -/
def os_path_exists (disk : List String) (p : String) : Bool := disk.contains p

/-- The acceptance check of `load_sounds` (line 229):
`if path and os.path.exists(path)`. -/
def keepRecord (disk : List String) (r : SettingsRecord) : Bool :=
  strTruthy r.path && os_path_exists disk r.path

/-- Method `load_sounds` (lines 219–235): clear the store, then scan the persisted
array in order, inserting every record that passes the path check into the
dict; records that fail the check are skipped without any error. -/
def load_sounds (disk : List String) (records : List SettingsRecord) :
    List (String × Entry) :=
  records.foldl
    (fun acc r =>
      if keepRecord disk r then dictInsert acc r.name ⟨r.path, r.key⟩ else acc)
    []

theorem dictGet_append (l1 l2 : List (String × Entry)) (n : String) :
    dictGet (l1 ++ l2) n
      = match dictGet l1 n with
        | some e => some e
        | none => dictGet l2 n := by
  induction l1 with
  | nil => simp [dictGet]
  | cons p rest ih =>
    by_cases hp : p.1 = n
    · simp [dictGet, hp]
    · simp [dictGet, hp, ih]

theorem load_foldl_fresh (disk : List String) (records : List SettingsRecord) :
    ∀ acc : List (String × Entry),
      (records.map SettingsRecord.name).Nodup →
      (∀ r ∈ records, dictGet acc r.name = none) →
      records.foldl
          (fun acc r =>
            if keepRecord disk r then dictInsert acc r.name ⟨r.path, r.key⟩
            else acc) acc
        = acc ++ (records.filter (keepRecord disk)).map
            (fun r => (r.name, ⟨r.path, r.key⟩)) := by
  induction records with
  | nil => intro acc _ _; simp
  | cons r rest ih =>
    intro acc hnd hfresh
    rw [List.map_cons, List.nodup_cons] at hnd
    by_cases hk : keepRecord disk r = true
    · have hfresh2 : ∀ r' ∈ rest,
          dictGet (acc ++ [(r.name, (⟨r.path, r.key⟩ : Entry))]) r'.name
            = none := by
        intro r' hr'
        rw [dictGet_append, hfresh r' (List.mem_cons_of_mem r hr')]
        have hne : r'.name ≠ r.name := by
          intro he
          exact hnd.1 (he ▸ List.mem_map_of_mem SettingsRecord.name hr')
        have hne' : ¬(r.name = r'.name) := fun h => hne h.symm
        simp [dictGet, hne']
      have hstep := ih (acc ++ [(r.name, (⟨r.path, r.key⟩ : Entry))]) hnd.2 hfresh2
      rw [List.foldl_cons, if_pos hk,
        dictInsert_of_get_none (hfresh r (List.mem_cons_self r rest))
          ((⟨r.path, r.key⟩ : Entry)),
        hstep, List.filter_cons_of_pos hk, List.map_cons, List.append_assoc]
      rfl
    · rw [List.foldl_cons, if_neg hk, ih acc hnd.2
        (fun r' hr' => hfresh r' (List.mem_cons_of_mem r hr'))]
      rw [List.filter_cons_of_neg (by simpa using hk)]

theorem save_names (sounds : List (String × Entry)) :
    (save_sounds sounds).map SettingsRecord.name = sounds.map Prod.fst := by
  simp [save_sounds, List.map_map]

theorem roundtrip_list (disk : List String) (sounds : List (String × Entry)) :
    ((save_sounds sounds).filter (keepRecord disk)).map
        (fun r => ((r.name, ⟨r.path, r.key⟩) : String × Entry))
      = sounds.filter
          (fun p => strTruthy p.2.path && os_path_exists disk p.2.path) := by
  induction sounds with
  | nil => rfl
  | cons p rest ih =>
    simp only [save_sounds, List.map_cons] at *
    rw [List.filter_cons, List.filter_cons]
    simp only [keepRecord]
    by_cases hk : (strTruthy p.2.path && os_path_exists disk p.2.path) = true
    · simp [hk, ih]
    · simp [hk, ih]

/-- Claim C5: for any store with unique ids, saving and then loading against
any disk reproduces, in order, exactly the entries (`{name, path, key}`)
whose path exists on disk at load time; entries with missing paths are
absent from the reloaded store. -/
theorem claimC5 (sounds : List (String × Entry)) (disk : List String)
    (hnd : (sounds.map Prod.fst).Nodup) :
    load_sounds disk (save_sounds sounds)
      = sounds.filter
          (fun p => strTruthy p.2.path && os_path_exists disk p.2.path) := by
  unfold load_sounds
  rw [load_foldl_fresh disk (save_sounds sounds) []
    (by rw [save_names]; exact hnd) (fun r _ => rfl)]
  rw [List.nil_append]
  exact roundtrip_list disk sounds

/-- Witness for C5 on a two-entry store where one path is missing. -/
theorem claimC5_witness :
    load_sounds ["/tmp/a.wav"]
        (save_sounds [("a.wav", ⟨"/tmp/a.wav", some "ctrl+q"⟩),
          ("b.wav", ⟨"/gone.wav", none⟩)])
      = [("a.wav", ⟨"/tmp/a.wav", some "ctrl+q"⟩),
          ("b.wav", ⟨"/gone.wav", none⟩)].filter
          (fun p => strTruthy p.2.path
            && os_path_exists ["/tmp/a.wav"] p.2.path) :=
  claimC5 [("a.wav", ⟨"/tmp/a.wav", some "ctrl+q"⟩),
    ("b.wav", ⟨"/gone.wav", none⟩)] ["/tmp/a.wav"] (by decide)

theorem mem_dictInsert {l : List (String × Entry)} {n : String} {e : Entry}
    {q : String × Entry} (h : q ∈ dictInsert l n e) : q ∈ l ∨ q = (n, e) := by
  induction l with
  | nil => simp [dictInsert] at h; right; exact h
  | cons p rest ih =>
    by_cases hp : p.1 = n
    · rw [dictInsert] at h
      simp only [if_pos hp] at h
      rcases List.mem_cons.mp h with h1 | h2
      · right; rw [h1, hp]
      · left; exact List.mem_cons_of_mem p h2
    · rw [dictInsert] at h
      simp only [if_neg hp] at h
      rcases List.mem_cons.mp h with h1 | h2
      · left; rw [h1]; exact List.mem_cons_self p rest
      · rcases ih h2 with h3 | h3
        · left; exact List.mem_cons_of_mem p h3
        · right; exact h3

theorem load_foldl_kept (disk : List String) (records : List SettingsRecord) :
    ∀ acc : List (String × Entry),
      (∀ q ∈ acc, strTruthy q.2.path && os_path_exists disk q.2.path = true) →
      ∀ q ∈ records.foldl
          (fun acc r =>
            if keepRecord disk r then dictInsert acc r.name ⟨r.path, r.key⟩
            else acc) acc,
        strTruthy q.2.path && os_path_exists disk q.2.path = true := by
  induction records with
  | nil => intro acc hacc q hq; exact hacc q hq
  | cons r rest ih =>
    intro acc hacc q hq
    rw [List.foldl_cons] at hq
    by_cases hk : keepRecord disk r = true
    · rw [if_pos hk] at hq
      refine ih _ ?_ q hq
      intro q' hq'
      rcases mem_dictInsert hq' with h1 | h1
      · exact hacc q' h1
      · rw [h1]
        simpa [keepRecord] using hk
    · rw [if_neg hk] at hq
      exact ih acc hacc q hq

/-- Claim C8: `load_sounds` is total (it raises nothing) and silently drops
exactly the records whose path check fails: the result is the same as
loading only the surviving records, and every entry of the result has a
truthy path that exists on disk — a record with a missing path leaves no
trace in the loaded store. -/
theorem claimC8 (disk : List String) (records : List SettingsRecord) :
    load_sounds disk records
        = load_sounds disk (records.filter (keepRecord disk))
      ∧ (∀ q ∈ load_sounds disk records,
          strTruthy q.2.path && os_path_exists disk q.2.path = true) := by
  constructor
  · unfold load_sounds
    generalize ([] : List (String × Entry)) = acc
    induction records generalizing acc with
    | nil => simp
    | cons r rest ih =>
      by_cases hk : keepRecord disk r = true
      · rw [List.filter_cons_of_pos hk, List.foldl_cons, List.foldl_cons,
          if_pos hk, ih]
      · rw [List.filter_cons_of_neg (by simpa using hk), List.foldl_cons,
          if_neg hk, ih]
  · exact load_foldl_kept disk records [] (by intro q hq; simp at hq)

/-- Witness for C8: the surviving entry of a mixed array passes the check. -/
theorem claimC8_witness :
    strTruthy (("a.wav", (⟨"/tmp/a.wav", some "k"⟩ : Entry)).2.path)
        && os_path_exists ["/tmp/a.wav"]
            (("a.wav", (⟨"/tmp/a.wav", some "k"⟩ : Entry)).2.path) = true :=
  (claimC8 ["/tmp/a.wav"]
      [⟨"a.wav", "/tmp/a.wav", some "k"⟩, ⟨"b.wav", "/gone.wav", none⟩]).2
    ("a.wav", ⟨"/tmp/a.wav", some "k"⟩) (by decide)

/-! ## C6: shutdown path outside x11 -/

/-- Observable system actions of `closeEvent`. -/
inductive SysOp where
  | sdStop
  | kbClearAll
deriving DecidableEq, Repr

/-- Whether the top-level `import keyboard` ran (lines 5–8): only when
`XDG_SESSION_TYPE` equals `"x11"` after lowercasing. -/
def keyboardImported (session : String) : Bool := session == "x11"

/-- Method `closeEvent` (lines 246–249): `sd.stop()` always runs; the following
`keyboard.clear_all_hotkeys()` is not guarded by the session check, so
under x11 it clears the hooks, and otherwise it raises `NameError` because
the name `keyboard` was never bound. Returned: the completed actions and
the raised exception, if any. -/
def closeEvent (session : String) : List SysOp × Option Err :=
  if keyboardImported session then ([.sdStop, .kbClearAll], none)
  else ([.sdStop], some .nameError)

/-- Claim C6 (evaluating the code at the failing input): in a `"wayland"`
session, closing the window runs `sd.stop()` and then raises `NameError`
from the unguarded `keyboard.clear_all_hotkeys()` — the shutdown path still
references the keyboard-hook API even though the capability is absent,
while under x11 the same line performs the hook-clearing call. -/
theorem claimC6_bug :
    closeEvent "wayland" = ([SysOp.sdStop], some Err.nameError)
      ∧ closeEvent "x11" = ([SysOp.sdStop, SysOp.kbClearAll], none)
      ∧ keyboardImported "wayland" = false := by
  decide

/-! ## C10: list-item labels and name recovery -/

/-- The label prefix `"🎵 "` (note character then a space). -/
def NOTE_MARK : List Char := ['🎵', ' ']

/-- The separator `" ["` before the displayed hotkey. -/
def LBL_SEP : List Char := [' ', '[']

/-- Python `text.replace(pat, "")` for nonempty `pat`: delete each leftmost
occurrence and continue scanning after it. -/
def pyRemoveAllAux (pat : List Char) : Nat → List Char → List Char
  | _, [] => []
  | k + 1, _ :: rest => pyRemoveAllAux pat k rest
  | 0, c :: rest =>
      if pat.isPrefixOf (c :: rest) then
        pyRemoveAllAux pat (pat.length - 1) rest
      else c :: pyRemoveAllAux pat 0 rest

/-- Python `text.replace(pat, "")` for nonempty `pat`: delete each leftmost
occurrence and continue scanning after it (the skip counter consumes the
remainder of a matched occurrence). -/
def pyRemoveAll (pat l : List Char) : List Char := pyRemoveAllAux pat 0 l

/-- Python `text.split(sep)[0]` for nonempty `sep`: the prefix before the
first occurrence of `sep` (the whole text if `sep` does not occur). -/
def pySplitFirst (sep : List Char) : List Char → List Char
  | [] => []
  | c :: rest =>
      if sep.isPrefixOf (c :: rest) then [] else c :: pySplitFirst sep rest

/-- The list-item label for an entry: `f"🎵 {name}"`, extended with
`f" [{key}]"` when a truthy hotkey is displayed (lines 153, 181,
231–233). -/
def makeLabel (name : String) (key : Option String) : List Char :=
  match key with
  | some k =>
      if strTruthy k then
        NOTE_MARK ++ (name.data ++ (' ' :: '[' :: (k.data ++ [']'])))
      else NOTE_MARK ++ name.data
  | none => NOTE_MARK ++ name.data

/-- Name recovery from a label:
`item.text().replace("🎵 ", "").split(" [")[0]` (lines 161, 176, 208). -/
def parseName (label : List Char) : List Char :=
  pySplitFirst LBL_SEP (pyRemoveAll NOTE_MARK label)

theorem pyRemoveAll_note (l : List Char) :
    pyRemoveAll NOTE_MARK ('🎵' :: ' ' :: l) = pyRemoveAll NOTE_MARK l := by
  show pyRemoveAllAux NOTE_MARK 0 ('🎵' :: ' ' :: l)
      = pyRemoveAllAux NOTE_MARK 0 l
  simp only [pyRemoveAllAux]
  rw [if_pos (by simp [NOTE_MARK, List.isPrefixOf])]

theorem pyRemoveAll_no_note {n : List Char} (t : List Char)
    (h : '🎵' ∉ n) :
    pyRemoveAll NOTE_MARK (n ++ t) = n ++ pyRemoveAll NOTE_MARK t := by
  induction n with
  | nil => rfl
  | cons c n' ih =>
    have hc : c ≠ '🎵' := fun he => h (he ▸ List.mem_cons_self c n')
    have hb : ('🎵' == c) = false :=
      beq_eq_false_iff_ne.mpr fun he => hc he.symm
    have hp : NOTE_MARK.isPrefixOf (c :: (n' ++ t)) = false := by
      simp [NOTE_MARK, List.isPrefixOf, hb]
    show pyRemoveAllAux NOTE_MARK 0 (c :: (n' ++ t))
        = (c :: n') ++ pyRemoveAllAux NOTE_MARK 0 t
    simp only [pyRemoveAllAux]
    rw [if_neg (by simp [hp]), List.cons_append]
    exact congrArg _ (ih fun hm => h (List.mem_cons_of_mem c hm))

theorem pyRemoveAll_id {n : List Char} (h : '🎵' ∉ n) :
    pyRemoveAll NOTE_MARK n = n := by
  induction n with
  | nil => rfl
  | cons c n' ih =>
    have hc : c ≠ '🎵' := fun he => h (he ▸ List.mem_cons_self c n')
    have hb : ('🎵' == c) = false :=
      beq_eq_false_iff_ne.mpr fun he => hc he.symm
    have hp : NOTE_MARK.isPrefixOf (c :: n') = false := by
      simp [NOTE_MARK, List.isPrefixOf, hb]
    show pyRemoveAllAux NOTE_MARK 0 (c :: n') = c :: n'
    simp only [pyRemoveAllAux]
    rw [if_neg (by simp [hp])]
    exact congrArg _ (ih fun hm => h (List.mem_cons_of_mem c hm))

theorem pySplitFirst_no_sep {n : List Char}
    (h : containsSubAux LBL_SEP n = false) :
    pySplitFirst LBL_SEP n = n := by
  induction n with
  | nil => rfl
  | cons c rest ih =>
    rw [containsSubAux, Bool.or_eq_false_iff] at h
    rw [pySplitFirst, if_neg (by simp [h.1]), ih h.2]

theorem pySplitFirst_at_sep {n : List Char} (t : List Char)
    (h : containsSubAux LBL_SEP n = false) :
    pySplitFirst LBL_SEP (n ++ ' ' :: '[' :: t) = n := by
  induction n with
  | nil =>
    rw [List.nil_append, pySplitFirst,
      if_pos (by simp [LBL_SEP, List.isPrefixOf])]
  | cons c rest ih =>
    rw [containsSubAux, Bool.or_eq_false_iff] at h
    have hp : LBL_SEP.isPrefixOf (c :: (rest ++ ' ' :: '[' :: t)) = false := by
      cases rest with
      | nil =>
        simp [LBL_SEP, List.isPrefixOf]
      | cons r rest' =>
        have := h.1
        simpa [LBL_SEP, List.isPrefixOf] using this
    rw [List.cons_append, pySplitFirst, if_neg (by simp [hp]), ih h.2]

/-- Claim C10, counterexample: for the id `"a🎵 b"` — which does not contain
the substring `" ["` — the name recovered from its label is `"ab"`, not
the id: `replace("🎵 ", "")` deletes every occurrence of the prefix
pattern, including the one inside the id, so the label/parse round-trip
fails and delete/assign/play would operate on a nonexistent id. -/
theorem claimC10_counterexample :
    containsSubAux LBL_SEP ("a🎵 b").data = false
      ∧ parseName (makeLabel "a🎵 b" none) = ("ab").data
      ∧ ("ab").data ≠ ("a🎵 b").data := by
  decide

/-- Claim C10, amended: the id recovered from a list-item label equals the
entry's stored id for every entry whose id contains neither the substring
`" ["` nor the character `'🎵'`; delete, hotkey assignment and manual play
operate on the entry the label was built from exactly under that
precondition. -/
theorem claimC10 (name : String) (key : Option String)
    (h1 : containsSubAux LBL_SEP name.data = false)
    (h2 : '🎵' ∉ name.data) :
    parseName (makeLabel name key) = name.data := by
  cases key with
  | none =>
    show pySplitFirst LBL_SEP
      (pyRemoveAll NOTE_MARK ('🎵' :: ' ' :: name.data)) = name.data
    rw [pyRemoveAll_note, pyRemoveAll_id h2]
    exact pySplitFirst_no_sep h1
  | some k =>
    by_cases ht : strTruthy k = true
    · have hno : '🎵' ∉ (name.data ++ [' ', '[']) := by
        intro hm
        rcases List.mem_append.mp hm with hm1 | hm2
        · exact h2 hm1
        · exact absurd hm2 (by decide)
      have hassoc : (name.data ++ [' ', '[']) ++ (k.data ++ [']'])
          = name.data ++ (' ' :: '[' :: (k.data ++ [']'])) := by
        simp
      have hstep2 := pyRemoveAll_no_note (k.data ++ [']']) hno
      rw [hassoc] at hstep2
      simp only [parseName, makeLabel, if_pos ht]
      have hpre : NOTE_MARK ++ (name.data ++ (' ' :: '[' :: (k.data ++ [']'])))
          = '🎵' :: ' ' :: (name.data ++ (' ' :: '[' :: (k.data ++ [']']))) := rfl
      rw [hpre, pyRemoveAll_note, hstep2]
      have hassoc2 : (name.data ++ [' ', '[']) ++
            pyRemoveAll NOTE_MARK (k.data ++ [']'])
          = name.data ++
              (' ' :: '[' :: pyRemoveAll NOTE_MARK (k.data ++ [']'])) := by
        simp
      rw [hassoc2]
      exact pySplitFirst_at_sep _ h1
    · simp only [parseName, makeLabel, if_neg ht]
      have hpre : NOTE_MARK ++ name.data = '🎵' :: ' ' :: name.data := rfl
      rw [hpre, pyRemoveAll_note, pyRemoveAll_id h2]
      exact pySplitFirst_no_sep h1

/-- Witness for C10 (amended) at the spec's end-to-end example entry. -/
theorem claimC10_witness :
    parseName (makeLabel "clap.wav" (some "ctrl+shift+w")) = ("clap.wav").data :=
  claimC10 "clap.wav" (some "ctrl+shift+w") (by decide) (by decide)

end Soundboard
